import Mathlib

/-!
Shallow embedding of the Fool shell core, translated from the Rust
sources: the state-machine command parser (parser.rs), the pipeline
wait / alias-resolution logic of the executor (executor.rs), and the
bounded, optionally file-backed history store (history.rs).

Strings are modelled at the character level (List Char for raw input,
Lean String for accumulated tokens and fields), machine integers as Int,
and the history backing file as the ordered list of its lines, where a
line either parses to an entry or does not.
-/

namespace Fool

/-- Single-quote character (codepoint 39). -/
def sq : Char := Char.ofNat 39

/-- Double-quote character (codepoint 34). -/
def dq : Char := Char.ofNat 34

/-- Backslash character (codepoint 92). -/
def bs : Char := Char.ofNat 92

/-- Tab character (codepoint 9). -/
def tabc : Char := Char.ofNat 9

/-- Parser states of the DFA in parser.rs (enum ParserState). -/
inductive ParserState where
  | Idle
  | CommandStart
  | Argument
  | SingleQuote
  | DoubleQuote
  | Pipe
  | RedirectOut
  | RedirectAppend
  | RedirectIn
  | AIMode
  | Escape
deriving DecidableEq, Repr

/-- Command structure from parser.rs (struct Command). -/
structure Command where
  program : String
  args : List String
  stdin_redirect : Option String
  stdout_redirect : Option String
  stdout_append : Bool
deriving DecidableEq, Repr

instance : Inhabited Command := ⟨⟨"", [], none, none, false⟩⟩

/-- Command::is_empty: a command is empty iff its program is the empty string. -/
def Command.is_empty (c : Command) : Bool := c.program.isEmpty

/-- Result of parsing a command line (enum ParseResult in parser.rs). -/
inductive ParseResult where
  | Commands (cmds : List Command)
  | AIQuery (q : String)
  | Empty
  | Error (msg : String)
deriving DecidableEq, Repr

/-- Parser::add_token: first token (or any token in CommandStart state)
becomes the program, later tokens become arguments. -/
def add_token (command : Command) (token : String) (state : ParserState) : Command :=
  if command.program.isEmpty ∨ state = ParserState.CommandStart then
    { command with program := token }
  else
    { command with args := command.args ++ [token] }

/-- End-of-input finalization of Parser::parse_commands (the code after the
character loop): apply a pending redirect target, flush a pending token,
append the last non-empty command, then check for error states. -/
def finalize (commands : List Command) (command : Command) (token : String)
    (state prev : ParserState) : ParseResult :=
  let p :=
    if token.isEmpty then (command, state)
    else
      match state with
      | ParserState.RedirectOut | ParserState.RedirectAppend =>
        ({ command with stdout_redirect := some token,
                        stdout_append := decide (state = ParserState.RedirectAppend) },
         ParserState.Argument)
      | ParserState.RedirectIn =>
        ({ command with stdin_redirect := some token }, ParserState.Argument)
      | ParserState.Escape =>
        (add_token command token prev, ParserState.Escape)
      | _ => (add_token command token state, state)
  let command1 := p.1
  let state1 := p.2
  let commands1 := if command1.is_empty then commands else commands ++ [command1]
  if state1 = ParserState.Escape then
    ParseResult.Error "Syntax error: trailing backslash"
  else if state1 = ParserState.SingleQuote ∨ state1 = ParserState.DoubleQuote then
    ParseResult.Error "Unclosed quote"
  else if state1 = ParserState.Pipe then
    ParseResult.Error "Syntax error: pipe without following command"
  else if state1 = ParserState.RedirectOut ∨ state1 = ParserState.RedirectAppend then
    ParseResult.Error "Syntax error: output redirection without file"
  else if state1 = ParserState.RedirectIn then
    ParseResult.Error "Syntax error: input redirection without file"
  else if commands1.isEmpty then ParseResult.Empty
  else ParseResult.Commands commands1

/-- Character loop of Parser::parse_commands. The accumulators mirror the
Rust locals: commands, current_command, current_token, state, prev_state.
The AIMode arm of the Rust match is an unreachable panic, modelled as
returning none. The loop index of the Rust while loop is modelled by a
fuel argument bounding the number of remaining iterations; every
iteration consumes at least one input character, so starting the fuel at
the input length makes exhaustion (also modelled as none) unreachable,
which is proved below. -/
def parseLoop : Nat → List Command → Command → String → ParserState → ParserState →
    List Char → Option ParseResult
  | _, commands, command, token, state, prev, [] =>
    some (finalize commands command token state prev)
  | 0, _, _, _, _, _, _ :: _ => none
  | fuel + 1, commands, command, token, state, prev, c :: rest =>
    match state with
    | ParserState.Idle | ParserState.CommandStart | ParserState.Argument =>
      if c = ' ' ∨ c = tabc then
        if token.isEmpty then
          parseLoop fuel commands command token state prev rest
        else
          parseLoop fuel commands (add_token command token state) "" ParserState.Argument prev rest
      else if c = sq then
        parseLoop fuel commands command token ParserState.SingleQuote state rest
      else if c = dq then
        parseLoop fuel commands command token ParserState.DoubleQuote state rest
      else if c = bs then
        parseLoop fuel commands command token ParserState.Escape state rest
      else if c = '|' then
        let command1 := if token.isEmpty then command else add_token command token state
        if command1.is_empty then
          parseLoop fuel commands command1 "" ParserState.Pipe prev rest
        else
          parseLoop fuel (commands ++ [command1]) default "" ParserState.Pipe prev rest
      else if c = '>' then
        let command1 := if token.isEmpty then command else add_token command token state
        match rest with
        | '>' :: rest2 =>
          parseLoop fuel commands command1 "" ParserState.RedirectAppend prev rest2
        | _ =>
          parseLoop fuel commands command1 "" ParserState.RedirectOut prev rest
      else if c = '<' then
        let command1 := if token.isEmpty then command else add_token command token state
        parseLoop fuel commands command1 "" ParserState.RedirectIn prev rest
      else
        parseLoop fuel commands command (token.push c)
          (if state = ParserState.Idle then ParserState.CommandStart else state) prev rest
    | ParserState.SingleQuote =>
      if c = sq then
        parseLoop fuel commands command token prev prev rest
      else
        parseLoop fuel commands command (token.push c) ParserState.SingleQuote prev rest
    | ParserState.DoubleQuote =>
      if c = dq then
        parseLoop fuel commands command token prev prev rest
      else if c = bs then
        match rest with
        | next :: rest2 =>
          if next = dq ∨ next = bs ∨ next = '$' then
            parseLoop fuel commands command (token.push next) ParserState.DoubleQuote prev rest2
          else
            parseLoop fuel commands command (token.push c) ParserState.DoubleQuote prev rest
        | [] =>
          parseLoop fuel commands command (token.push c) ParserState.DoubleQuote prev rest
      else
        parseLoop fuel commands command (token.push c) ParserState.DoubleQuote prev rest
    | ParserState.Escape =>
      parseLoop fuel commands command (token.push c) prev prev rest
    | ParserState.Pipe =>
      if c.isWhitespace then
        parseLoop fuel commands command token ParserState.Pipe prev rest
      else
        parseLoop fuel commands command (token.push c) ParserState.CommandStart prev rest
    | ParserState.RedirectOut | ParserState.RedirectAppend =>
      if c = ' ' ∨ c = tabc then
        if token.isEmpty then
          parseLoop fuel commands command token state prev rest
        else
          parseLoop fuel commands
            { command with stdout_redirect := some token,
                           stdout_append := decide (state = ParserState.RedirectAppend) }
            "" ParserState.Argument prev rest
      else if c = sq then
        parseLoop fuel commands command token ParserState.SingleQuote state rest
      else if c = dq then
        parseLoop fuel commands command token ParserState.DoubleQuote state rest
      else if c = bs then
        parseLoop fuel commands command token ParserState.Escape state rest
      else
        parseLoop fuel commands command (token.push c) state prev rest
    | ParserState.RedirectIn =>
      if c = ' ' ∨ c = tabc then
        if token.isEmpty then
          parseLoop fuel commands command token state prev rest
        else
          parseLoop fuel commands { command with stdin_redirect := some token }
            "" ParserState.Argument prev rest
      else if c = sq then
        parseLoop fuel commands command token ParserState.SingleQuote state rest
      else if c = dq then
        parseLoop fuel commands command token ParserState.DoubleQuote state rest
      else if c = bs then
        parseLoop fuel commands command token ParserState.Escape state rest
      else
        parseLoop fuel commands command (token.push c) state prev rest
    | ParserState.AIMode => none

/-- Parser::parse_commands: run the character loop from the initial state. -/
def parse_commands (input : List Char) : Option ParseResult :=
  parseLoop input.length [] default "" ParserState.Idle ParserState.Idle input

/-- Model of str::trim: strip whitespace from both ends. -/
def strTrim (s : List Char) : List Char :=
  ((s.dropWhile Char.isWhitespace).reverse.dropWhile Char.isWhitespace).reverse

/-- Parser::parse: trim, return Empty on blank input, check the AI trigger
as a literal character-level prefix before any tokenizing, otherwise run
the command state machine. -/
def parse (aiTrigger : List Char) (input : List Char) : Option ParseResult :=
  let trimmed := strTrim input
  if trimmed.isEmpty then some ParseResult.Empty
  else if aiTrigger.isPrefixOf trimmed then
    some (ParseResult.AIQuery ((strTrim (trimmed.drop aiTrigger.length)).asString))
  else
    parse_commands trimmed

/-! Executor model (executor.rs). A spawned child process is modelled by
its eventual wait status: the optional exit code that std::process
ExitStatus::code returns (none when the child was killed by a signal). -/

/-- Wait status of one child process: the value of ExitStatus::code(). -/
abbrev WaitStatus := Option Int

/-- Execution result returned by the executor (struct ExecutionResult). -/
structure ExecutionResult where
  exit_code : Int
  stdout : Option String
  stderr : Option String
deriving DecidableEq, Repr

/-- Executor state relevant to the pipeline claims: the tracked last exit
code (field last_exit_code of struct Executor). -/
structure Executor where
  last_exit_code : Int
deriving DecidableEq, Repr

/-- Wait section of Executor::execute_external_pipeline (the code after all
segments have spawned): wait for every child in order, keeping only the
last status; the exit code is that status's code, defaulting to 1, and
last_exit_code is updated to it. The list holds one wait status per
pipeline segment, in spawn order. -/
def wait_pipeline (ex : Executor) (statuses : List WaitStatus) :
    ExecutionResult × Executor :=
  let last_status : Option WaitStatus :=
    statuses.foldl (fun _ s => some s) none
  let exit_code := (last_status.bind id).getD 1
  ({ exit_code := exit_code, stdout := none, stderr := none },
   { ex with last_exit_code := exit_code })

/-- Alias resolution step of Executor::execute_external_pipeline: if the
segment's program has an alias with a non-empty token list, the first
alias token becomes the program and the remaining tokens are prepended to
the segment's arguments. The alias table is modelled as a lookup
function. -/
def resolve_alias (aliases : String → Option (List String))
    (program : String) (args : List String) : String × List String :=
  match aliases program with
  | some alias_tokens =>
    match alias_tokens with
    | [] => (program, args)
    | prog :: restTokens => (prog, restTokens ++ args)
  | none => (program, args)

/-! History store model (history.rs). The backing file is modelled as the
ordered list of its lines; a line either deserializes to an entry (some)
or fails to parse (none). Serialization is assumed to round-trip, so
compaction writes lines that all deserialize. Timestamps are abstract
instants. -/

/-- History entry (struct HistoryEntry). -/
structure HistoryEntry where
  command : String
  exit_code : Option Int
  timestamp : Int
  cwd : Option String
  stdout_summary : Option String
deriving DecidableEq, Repr

/-- Backing file contents: one line per element, parsed or unparseable. -/
abbrev HistoryFile := List (Option HistoryEntry)

/-- History store (struct History). The VecDeque is a list with the oldest
entry first; file_path carries the current backing-file contents when a
backing file exists (none = memory-only mode). -/
structure History where
  entries : List HistoryEntry
  file_path : Option HistoryFile
  max_entries : Nat
  entries_since_compact : Nat
  pending_entry : Bool
deriving DecidableEq, Repr

/-- History::new_memory_only. -/
def History.new_memory_only (max_entries : Nat) : History :=
  ⟨[], none, max_entries, 0, false⟩

/-- Loop body of History::load: a parsed line is pushed back with the
same bounded eviction as add; an unparseable line is silently skipped. -/
def loadStep (max_entries : Nat) (entries : List HistoryEntry)
    (line : Option HistoryEntry) : List HistoryEntry :=
  match line with
  | some entry =>
    let entries := entries ++ [entry]
    if entries.length > max_entries then entries.tail else entries
  | none => entries

/-- History::load, as the entry list obtained by folding the bounded
push-back over the file lines. -/
def History.load (max_entries : Nat) (file : HistoryFile) : List HistoryEntry :=
  file.foldl (loadStep max_entries) []

/-- History::new for a file-backed store with existing file contents. -/
def History.new (file : HistoryFile) (max_entries : Nat) : History :=
  ⟨History.load max_entries file, some file, max_entries, 0, false⟩

/-- History::compact: nothing in memory-only mode; otherwise write every
in-memory entry except a still-pending newest one to a temporary file and
rename it over the backing file (modelled as replacing the file
contents). -/
def History.compact (h : History) : History :=
  match h.file_path with
  | none => h
  | some _ =>
    let entries_to_write :=
      if h.pending_entry = true ∧ h.entries.isEmpty = false then
        h.entries.length - 1
      else h.entries.length
    { h with file_path := some ((h.entries.take entries_to_write).map some) }

/-- History::add: bounded push-back (evicting the oldest when over
max_entries), mark pending, bump the add-counter, and compact (resetting
the counter) when the counter reaches max_entries and a backing file
exists. -/
def History.add (h : History) (entry : HistoryEntry) : History :=
  let entries := h.entries ++ [entry]
  let entries := if entries.length > h.max_entries then entries.tail else entries
  let h1 : History :=
    { h with entries := entries, pending_entry := true,
             entries_since_compact := h.entries_since_compact + 1 }
  if h1.file_path.isSome = true ∧ h1.entries_since_compact ≥ h1.max_entries then
    { h1.compact with entries_since_compact := 0 }
  else h1

/-- Suffix of the last n elements of a list (proof helper used to state
the eviction behavior). -/
def lastN (n : Nat) (xs : List α) : List α := xs.drop (xs.length - n)

/-! Helper lemmas for the parser invariants. -/

theorem good_append (commands : List Command) (command : Command)
    (hc : ∀ c ∈ commands, c.is_empty = false) (h1 : command.is_empty = false) :
    ∀ c ∈ commands ++ [command], c.is_empty = false := by
  intro c hmem
  rcases List.mem_append.mp hmem with h | h
  · exact hc c h
  · rw [List.mem_singleton.mp h]
    exact h1

theorem finalize_commands_sound (commands : List Command) (command : Command)
    (token : String) (state prev : ParserState)
    (hc : ∀ c ∈ commands, c.is_empty = false) :
    ∀ out, finalize commands command token state prev = ParseResult.Commands out →
      ∀ c ∈ out, c.is_empty = false := by
  intro out hout
  simp only [finalize] at hout
  repeat' split at hout
  all_goals simp_all
  all_goals rcases hout with rfl
  all_goals intro c hmem
  all_goals rcases List.mem_append.mp hmem with h | h
  all_goals first
    | exact hc c h
    | (rw [List.mem_singleton.mp h]; simp_all)

set_option maxHeartbeats 1600000 in
theorem parseLoop_inv :
    ∀ (fuel : Nat) (chars : List Char) (commands : List Command) (command : Command)
      (token : String) (state prev : ParserState),
      chars.length ≤ fuel →
      state ≠ ParserState.AIMode → prev ≠ ParserState.AIMode →
      (∀ c ∈ commands, c.is_empty = false) →
      ∃ r, parseLoop fuel commands command token state prev chars = some r ∧
        (∀ out, r = ParseResult.Commands out → ∀ c ∈ out, c.is_empty = false) := by
  intro fuel
  induction fuel with
  | zero =>
    intro chars commands command token state prev hlen hs hp hc
    have hnil : chars = [] := List.length_eq_zero.mp (Nat.le_zero.mp hlen)
    subst hnil
    exact ⟨_, rfl, fun out hout =>
      finalize_commands_sound commands command token state prev hc out hout⟩
  | succ fuel ih =>
    intro chars commands command token state prev hlen hs hp hc
    cases chars with
    | nil =>
      exact ⟨_, rfl, fun out hout =>
        finalize_commands_sound commands command token state prev hc out hout⟩
    | cons c rest =>
      have hrest : rest.length ≤ fuel := by
        simp only [List.length_cons] at hlen
        omega
      cases state <;>
        first
        | exact absurd rfl hs
        | (simp only [parseLoop]
           repeat' split
           all_goals
             apply ih <;>
               first
               | exact hc
               | assumption
               | decide
               | exact hp
               | (simp at hrest ⊢; omega)
               | (apply good_append _ _ hc; simp_all))

/-- C10: the state machine never reaches the AIMode arm (the unreachable
panic), so parse is total: every input yields one of the four ParseResult
variants. -/
theorem parse_never_panics (trig input : List Char) :
    ∃ r, parse trig input = some r := by
  by_cases h1 : (strTrim input).isEmpty = true
  · exact ⟨ParseResult.Empty, by simp [parse, h1]⟩
  · by_cases h2 : trig.isPrefixOf (strTrim input) = true
    · exact ⟨ParseResult.AIQuery ((strTrim ((strTrim input).drop trig.length)).asString),
        by simp [parse, h1, h2]⟩
    · obtain ⟨r, hr, _⟩ := parseLoop_inv (strTrim input).length (strTrim input)
        [] default "" ParserState.Idle ParserState.Idle le_rfl
        (by decide) (by decide) (by simp)
      exact ⟨r, by simpa [parse, h1, h2, parse_commands] using hr⟩

/-- C9: every Command in a Commands result of parse has a non-empty
program (empty commands are never appended to the pipeline). -/
theorem parse_commands_never_empty (trig input : List Char) (out : List Command)
    (h : parse trig input = some (ParseResult.Commands out)) :
    ∀ c ∈ out, c.is_empty = false := by
  by_cases h1 : (strTrim input).isEmpty = true
  · simp [parse, h1] at h
  · by_cases h2 : trig.isPrefixOf (strTrim input) = true
    · simp [parse, h1, h2] at h
    · obtain ⟨r, hr, hgood⟩ := parseLoop_inv (strTrim input).length (strTrim input)
        [] default "" ParserState.Idle ParserState.Idle le_rfl
        (by decide) (by decide) (by simp)
      simp [parse, h1, h2, parse_commands] at h
      rw [h] at hr
      exact hgood out (by injection hr with hh; exact hh.symm)

theorem parse_commands_never_empty_witness :
    Command.is_empty ⟨"a", [], none, none, false⟩ = false :=
  parse_commands_never_empty ['!'] ("a | b".data)
    [⟨"a", [], none, none, false⟩, ⟨"b", [], none, none, false⟩]
    (by decide) ⟨"a", [], none, none, false⟩ (by decide)

/-- C1: when the trimmed input starts with the (non-empty) trigger, parse
returns AIQuery with exactly the remainder after the trigger, trimmed —
before any tokenizing, so never Commands or Error. -/
theorem parse_ai_trigger_literal (trig input : List Char) (h1 : trig ≠ [])
    (h2 : trig.isPrefixOf (strTrim input) = true) :
    parse trig input =
      some (ParseResult.AIQuery ((strTrim ((strTrim input).drop trig.length)).asString)) := by
  have hne : strTrim input ≠ [] := by
    intro h
    rw [h] at h2
    cases trig with
    | nil => exact h1 rfl
    | cons a as => simp [List.isPrefixOf] at h2
  have h3 : (strTrim input).isEmpty = false := by
    cases h : strTrim input with
    | nil => exact absurd h hne
    | cons a as => rfl
  simp [parse, h3, h2]

theorem parse_ai_trigger_literal_witness :
    parse ['!'] ("! rm -rf / | <<< invalid $(".data) =
      some (ParseResult.AIQuery "rm -rf / | <<< invalid $(") := by
  rw [parse_ai_trigger_literal ['!'] ("! rm -rf / | <<< invalid $(".data)
    (by decide) (by decide)]
  decide

/-- C2: the pipeline exit code is the code of the last waited segment
alone, independent of every earlier segment's status, and last_exit_code
is set to the same value; a pipeline like false-then-true exits 0. -/
theorem pipeline_exit_code_is_last (ex : Executor)
    (earlier other : List WaitStatus) (c : Int) :
    (wait_pipeline ex (earlier ++ [some c])).1.exit_code = c ∧
    (wait_pipeline ex (earlier ++ [some c])).2.last_exit_code = c ∧
    wait_pipeline ex (earlier ++ [some c]) = wait_pipeline ex (other ++ [some c]) ∧
    (wait_pipeline ⟨0⟩ [some 1, some 0]).1.exit_code = 0 := by
  have hfold : ∀ (l : List WaitStatus) (init : Option WaitStatus) (s : WaitStatus),
      (l ++ [s]).foldl (fun _ x => some x) init = some s := by
    intro l
    induction l with
    | nil => intro init s; rfl
    | cons a l ihl => intro init s; simpa using ihl (some a) s
  refine ⟨?_, ?_, ?_, by decide⟩ <;> simp [wait_pipeline, hfold]

/-- C5: single- and double-quoted spans become single tokens with the
quotes stripped and embedded spaces preserved. -/
theorem parse_quoted_tokens :
    parse ['!'] ("cmd ".data ++ [sq] ++ "a b".data ++ [sq, ' ', dq] ++ "c d".data ++ [dq]) =
      some (ParseResult.Commands [⟨"cmd", ["a b", "c d"], none, none, false⟩]) := by
  decide

/-- C6: a pipe yields two commands in order; dangling pipe, output
redirect and input redirect each yield an Error, with three distinct
messages mentioning pipe and redirection respectively. -/
theorem parse_pipe_and_dangling_operators :
    parse ['!'] ("a | b".data) =
      some (ParseResult.Commands
        [⟨"a", [], none, none, false⟩, ⟨"b", [], none, none, false⟩]) ∧
    parse ['!'] ("a |".data) =
      some (ParseResult.Error "Syntax error: pipe without following command") ∧
    parse ['!'] ("a >".data) =
      some (ParseResult.Error "Syntax error: output redirection without file") ∧
    parse ['!'] ("a >>".data) =
      some (ParseResult.Error "Syntax error: output redirection without file") ∧
    parse ['!'] ("a <".data) =
      some (ParseResult.Error "Syntax error: input redirection without file") ∧
    "pipe".data <:+: "Syntax error: pipe without following command".data ∧
    "redirection".data <:+: "Syntax error: output redirection without file".data ∧
    "redirection".data <:+: "Syntax error: input redirection without file".data ∧
    ("Syntax error: pipe without following command" : String) ≠
      "Syntax error: output redirection without file" ∧
    ("Syntax error: pipe without following command" : String) ≠
      "Syntax error: input redirection without file" ∧
    ("Syntax error: output redirection without file" : String) ≠
      "Syntax error: input redirection without file" := by
  decide

/-- C7: an input ending in an unconsumed escape state is a parse error
mentioning backslash, for both a trailing backslash after content and a
lone backslash; the finalization flushes any accumulated escape-state
content as a token and still reports the error, whatever the
accumulators hold. -/
theorem parse_trailing_backslash :
    parse ['!'] ("echo x".data ++ [bs]) =
      some (ParseResult.Error "Syntax error: trailing backslash") ∧
    parse ['!'] [bs] =
      some (ParseResult.Error "Syntax error: trailing backslash") ∧
    "backslash".data <:+: "Syntax error: trailing backslash".data ∧
    ∀ (commands : List Command) (command : Command) (token : String) (prev : ParserState),
      finalize commands command token ParserState.Escape prev =
        ParseResult.Error "Syntax error: trailing backslash" := by
  refine ⟨by decide, by decide, by decide, ?_⟩
  intro commands command token prev
  cases h : token.isEmpty <;> simp [finalize, h]

/-- C8: a segment whose program has an alias with a non-empty token list
gets the alias's first token as program and the remaining alias tokens
prepended to its original arguments, which are all kept in order. -/
theorem alias_resolution_prepends (aliases : String → Option (List String))
    (program : String) (args : List String) (t : String) (ts : List String)
    (h : aliases program = some (t :: ts)) :
    resolve_alias aliases program args = (t, ts ++ args) ∧
    ∃ pre, (resolve_alias aliases program args).2 = pre ++ args := by
  refine ⟨by simp [resolve_alias, h], ⟨ts, by simp [resolve_alias, h]⟩⟩

theorem alias_resolution_prepends_witness :
    resolve_alias (fun s => if s = "ll" then some ["ls", "-la"] else none) "ll" ["src"] =
      ("ls", ["-la", "src"]) ∧
    ∃ pre, (resolve_alias (fun s => if s = "ll" then some ["ls", "-la"] else none)
      "ll" ["src"]).2 = pre ++ ["src"] :=
  alias_resolution_prepends (fun s => if s = "ll" then some ["ls", "-la"] else none)
    "ll" ["src"] "ls" ["-la"] (by decide)

/-! Helper lemmas for the history store. The suffix of the last n elements
of a list characterizes the bounded eviction. -/

theorem lastN_of_le (n : Nat) (xs : List α) (h : xs.length ≤ n) : lastN n xs = xs := by
  simp [lastN, Nat.sub_eq_zero_of_le h]

theorem lastN_append (n : Nat) (ys zs : List α) (h : n ≤ zs.length) :
    lastN n (ys ++ zs) = lastN n zs := by
  unfold lastN
  have h1 : (ys ++ zs).length - n = ys.length + (zs.length - n) := by
    simp
    omega
  rw [h1, List.drop_append]

theorem lastN_lastN_append (n : Nat) (xs l : List α) :
    lastN n (lastN n xs ++ l) = lastN n (xs ++ l) := by
  by_cases hx : xs.length ≤ n
  · rw [lastN_of_le n xs hx]
  · have key : lastN n (xs ++ l) = lastN n (xs.drop (xs.length - n) ++ l) := by
      conv_lhs => rw [← List.take_append_drop (xs.length - n) xs, List.append_assoc]
      exact lastN_append n (xs.take (xs.length - n)) (xs.drop (xs.length - n) ++ l)
        (by simp; omega)
    rw [key]
    rfl

theorem compact_entries (h : History) : h.compact.entries = h.entries := by
  unfold History.compact
  split <;> rfl

theorem compact_max (h : History) : h.compact.max_entries = h.max_entries := by
  unfold History.compact
  split <;> rfl

theorem add_entries (h : History) (e : HistoryEntry) :
    (h.add e).entries =
      (if (h.entries ++ [e]).length > h.max_entries then (h.entries ++ [e]).tail
       else h.entries ++ [e]) := by
  simp only [History.add]
  split
  · simp [compact_entries]
  · rfl

theorem add_max (h : History) (e : HistoryEntry) :
    (h.add e).max_entries = h.max_entries := by
  simp only [History.add]
  split
  · simp [compact_max]
  · rfl

theorem add_step_lastN (h : History) (e : HistoryEntry)
    (hle : h.entries.length ≤ h.max_entries) :
    (h.add e).entries = lastN h.max_entries (h.entries ++ [e]) ∧
    (h.add e).entries.length ≤ h.max_entries := by
  rw [add_entries]
  split
  · rename_i hgt
    constructor
    · unfold lastN
      have h2 : (h.entries ++ [e]).length - h.max_entries = 1 := by
        simp at hgt ⊢
        omega
      rw [h2, List.drop_one]
    · simp at hgt ⊢
      omega
  · rename_i hng
    constructor
    · rw [lastN_of_le]
      simp at hng ⊢
      omega
    · simp at hng ⊢
      omega

theorem foldl_add_lastN (l : List HistoryEntry) :
    ∀ h : History, h.entries.length ≤ h.max_entries →
      (l.foldl History.add h).entries = lastN h.max_entries (h.entries ++ l) ∧
      (l.foldl History.add h).entries.length ≤ h.max_entries := by
  induction l with
  | nil =>
    intro h hle
    simpa [lastN_of_le _ _ hle] using hle
  | cons e l ih =>
    intro h hle
    obtain ⟨hstep, hstepl⟩ := add_step_lastN h e hle
    have hmax : (h.add e).max_entries = h.max_entries := add_max h e
    obtain ⟨h1, h2⟩ := ih (h.add e) (by rw [hmax]; exact hstepl)
    rw [List.foldl_cons]
    refine ⟨?_, ?_⟩
    · rw [h1, hmax, hstep, lastN_lastN_append]
      simp
    · rw [hmax] at h2
      exact h2

theorem load_aux (m : Nat) (l : List HistoryEntry) :
    ∀ acc : List HistoryEntry, acc.length + l.length ≤ m →
      (l.map some).foldl (loadStep m) acc = acc ++ l := by
  induction l with
  | nil =>
    intro acc hacc
    simp
  | cons e l ih =>
    intro acc hacc
    simp only [List.map_cons, List.foldl_cons]
    have hstep : loadStep m acc (some e) = acc ++ [e] := by
      simp at hacc
      simp [loadStep]
      omega
    rw [hstep, ih (acc ++ [e]) (by simp at hacc ⊢; omega)]
    simp

theorem load_map_some (m : Nat) (l : List HistoryEntry) (hl : l.length ≤ m) :
    History.load m (l.map some) = l := by
  simpa using load_aux m l [] (by simpa using hl)

/-- C3: adding max_entries + k entries to an empty history leaves exactly
max_entries entries, evicted oldest-first so that the oldest survivor is
the (k+1)-th entry added, and no sequence of adds ever pushes the
in-memory count above max_entries. -/
theorem history_add_bounded (h0 : History) (l : List HistoryEntry) (m k : Nat)
    (he : h0.entries = []) (hm : h0.max_entries = m) (hl : l.length = m + k) :
    (l.foldl History.add h0).entries = l.drop k ∧
    (l.foldl History.add h0).entries.length = m ∧
    ∀ (h : History) (l2 : List HistoryEntry),
      h.entries.length ≤ h.max_entries →
      (l2.foldl History.add h).entries.length ≤ h.max_entries := by
  obtain ⟨h1, h2⟩ := foldl_add_lastN l h0 (by simp [he])
  have hdrop : lastN h0.max_entries (h0.entries ++ l) = l.drop k := by
    rw [he, hm]
    unfold lastN
    simp
    congr 1
    omega
  refine ⟨by rw [h1, hdrop], ?_, fun h l2 hle => (foldl_add_lastN l2 h hle).2⟩
  rw [h1, hdrop]
  simp
  omega

theorem history_add_bounded_witness :
    (([⟨"a", none, 0, none, none⟩, ⟨"b", none, 1, none, none⟩,
       ⟨"c", none, 2, none, none⟩] : List HistoryEntry).foldl History.add
      (History.new_memory_only 2)).entries =
      [⟨"b", none, 1, none, none⟩, ⟨"c", none, 2, none, none⟩] ∧
    (([⟨"a", none, 0, none, none⟩, ⟨"b", none, 1, none, none⟩,
       ⟨"c", none, 2, none, none⟩] : List HistoryEntry).foldl History.add
      (History.new_memory_only 2)).entries.length = 2 :=
  ⟨(history_add_bounded (History.new_memory_only 2)
      [⟨"a", none, 0, none, none⟩, ⟨"b", none, 1, none, none⟩,
       ⟨"c", none, 2, none, none⟩] 2 1 (by decide) (by decide) (by decide)).1,
   (history_add_bounded (History.new_memory_only 2)
      [⟨"a", none, 0, none, none⟩, ⟨"b", none, 1, none, none⟩,
       ⟨"c", none, 2, none, none⟩] 2 1 (by decide) (by decide) (by decide)).2.1⟩

/-- C4: in file-backed mode compaction writes the in-memory entries in
order, skipping a still-pending newest one exactly when the pending flag
is set and the buffer is non-empty: reloading the rewritten file yields
those entries back; compaction is idempotent; in memory-only mode it does
nothing. -/
theorem compact_roundtrip (h : History) (f : HistoryFile)
    (hf : h.file_path = some f) (hle : h.entries.length ≤ h.max_entries) :
    (∃ g, h.compact.file_path = some g ∧
      History.load h.max_entries g =
        (if h.pending_entry = true ∧ h.entries.isEmpty = false
         then h.entries.dropLast else h.entries)) ∧
    h.compact.compact = h.compact ∧
    (∀ h2 : History, h2.file_path = none → h2.compact = h2) := by
  refine ⟨?_, ?_, fun h2 hn => by simp [History.compact, hn]⟩
  · refine ⟨(h.entries.take (if h.pending_entry = true ∧ h.entries.isEmpty = false
        then h.entries.length - 1 else h.entries.length)).map some, ?_, ?_⟩
    · simp [History.compact, hf]
    · rw [load_map_some]
      · split
        · rename_i hcond
          simp [hcond, List.dropLast_eq_take]
        · rename_i hcond
          simp [hcond]
      · split <;> simp <;> omega
  · simp [History.compact, hf]

theorem compact_roundtrip_witness :
    ((⟨[⟨"a", none, 0, none, none⟩, ⟨"b", none, 1, none, none⟩],
       some [], 2, 0, true⟩ : History).compact).compact =
      (⟨[⟨"a", none, 0, none, none⟩, ⟨"b", none, 1, none, none⟩],
        some [], 2, 0, true⟩ : History).compact :=
  (compact_roundtrip
    ⟨[⟨"a", none, 0, none, none⟩, ⟨"b", none, 1, none, none⟩], some [], 2, 0, true⟩
    [] (by decide) (by decide)).2.1

end Fool
